import Mathlib

/-!
Verification development for the backtest engine of the `backtest-dj`
repository (Django backend, `core` app).

The shallow embedding below models:
* `simple_backtest` from `core/views.py` — the hand-rolled SMA-crossover
  fallback backtester (pandas rolling means, dropna, signal/diff columns,
  and the bar-by-bar cash/position loop);
* `sanitize_series`, `get_safe_metric` and `compute_metrics` from
  `core/services/backtest.py`;
* the strategy factory `create_strategy` from `core/strategies/factory.py`
  together with the UI-alias table `STRATEGY_MAP` and the orchestration of
  `run_backtest` from `core/services/backtest.py`;
* the break-even / entry logic of `LaBomba.next` from
  `core/strategies/la_bomba.py`.

Numbers are modelled as rationals (`ℚ`); a pandas `NaN` cell never arises
from valid OHLCV input inside `simple_backtest` (all arithmetic there is
on finite values), while the NaN/None/Inf values that `sanitize_series`
and `get_safe_metric` must handle are modelled explicitly by the `PyVal`
type.  DataFrame row labels (timestamps) are strictly increasing, so they
are represented by the row's integer position.
-/

namespace Backtest

/-- One OHLCV bar of the input DataFrame: columns `Open`, `High`, `Low`,
`Close`, `Volume` (all finite; valid input). -/
structure Bar where
  o : ℚ
  h : ℚ
  l : ℚ
  c : ℚ
  v : ℚ
  deriving Repr, DecidableEq, Inhabited

/-- Pandas `df["Close"].rolling(n).mean()` evaluated at row `i`: defined (non-NaN)
exactly when `1 ≤ n` and `n - 1 ≤ i < len`, in which case it is the mean of
`closes[i-n+1 .. i]`. -/
def smaAt (closes : List ℚ) (n i : ℕ) : Option ℚ :=
  if 1 ≤ n ∧ n - 1 ≤ i ∧ i < closes.length then
    some ((((List.range n).map (fun k => closes.getD (i - k) 0)).sum) / (n : ℚ))
  else none

/-- The `signal` column of `simple_backtest`:
`np.where(df["sma1"] > df["sma2"], 1, 0)` at original row index `i`. -/
def sigAt (closes : List ℚ) (n1 n2 i : ℕ) : ℤ :=
  if (smaAt closes n1 i).getD 0 > (smaAt closes n2 i).getD 0 then 1 else 0

/-- Pandas `series.diff().fillna(0)`: first entry 0, entry `j ≥ 1` is
`l[j] - l[j-1]`. -/
def diffFill (l : List ℤ) : List ℤ :=
  match l with
  | [] => []
  | x :: xs => 0 :: List.zipWith (fun a b => a - b) xs (x :: xs)

/-- One row of the DataFrame after
`df.dropna(subset=["sma1","sma2"], inplace=True)` augmented with the
`signal` and `position_change` columns; `i` is the row's position in the
original input frame. -/
structure Row where
  i : ℕ
  bar : Bar
  sig : ℤ
  pc : ℤ
  deriving Repr, DecidableEq, Inhabited

/-- Assembles one worked row from an enumerated bar and its
`position_change` value. -/
def mkRow (closes : List ℚ) (n1 n2 : ℕ) (p : ℕ × Bar) (d : ℤ) : Row :=
  { i := p.1, bar := p.2, sig := sigAt closes n1 n2 p.1, pc := d }

/-- The enumerated frame after
`df.dropna(subset=["sma1","sma2"], inplace=True)`: the bars, paired with
their original row position, whose `sma1` and `sma2` cells are both
non-NaN. -/
def frameOf (df : List Bar) (n1 n2 : ℕ) : List (ℕ × Bar) :=
  df.enum.filter
    (fun p => (smaAt (df.map (·.c)) n1 p.1).isSome &&
      (smaAt (df.map (·.c)) n2 p.1).isSome)

/-- Builds the working DataFrame of `simple_backtest`: computes `sma1`,
`sma2`, drops the rows where either is NaN, then adds the `signal` and
`position_change` (`signal.diff().fillna(0)`) columns. -/
def buildRows (df : List Bar) (n1 n2 : ℕ) : List Row :=
  List.zipWith (mkRow (df.map (·.c)) n1 n2) (frameOf df n1 n2)
    (diffFill ((frameOf df n1 n2).map
      (fun p => sigAt (df.map (·.c)) n1 n2 p.1)))

/-- Loop state of `simple_backtest`: `cash` and the held share count
`position`. -/
structure SBState where
  cash : ℚ
  position : ℤ
  deriving Repr, DecidableEq, Inhabited

/-- One element of `equity_list`:
`{"date": date, "equity": equity, "cash": cash, "position": position}`. -/
structure EqPoint where
  i : ℕ
  equity : ℚ
  cash : ℚ
  position : ℤ
  deriving Repr, DecidableEq, Inhabited

/-- One element of `trades`:
`{"date": date, "type": buy|sell, "price": exec_price, "shares": shares}`. -/
structure TradeRec where
  i : ℕ
  isBuy : Bool
  price : ℚ
  shares : ℤ
  deriving Repr, DecidableEq, Inhabited

/-- The buy branch of `simple_backtest`:
`shares = int((cash * (1 - commission)) // exec_price)`; when positive,
`cash -= shares * exec_price * (1 + commission)` and the position grows. -/
def buyUpdate (commission : ℚ) (st : SBState) (execPrice : ℚ) (i : ℕ) :
    SBState × Option TradeRec :=
  let shares : ℤ := Int.floor ((st.cash * (1 - commission)) / execPrice)
  if 0 < shares then
    ({ cash := st.cash - ((shares : ℚ) * execPrice) * (1 + commission),
       position := st.position + shares },
     some { i := i, isBuy := true, price := execPrice, shares := shares })
  else (st, none)

/-- The sell branch of `simple_backtest`: when a position is held,
`cash += position * exec_price * (1 - commission)` and the position is
cleared. -/
def sellUpdate (commission : ℚ) (st : SBState) (execPrice : ℚ) (i : ℕ) :
    SBState × Option TradeRec :=
  if 0 < st.position then
    ({ cash := st.cash + ((st.position : ℚ) * execPrice) * (1 - commission),
       position := 0 },
     some { i := i, isBuy := false, price := execPrice, shares := st.position })
  else (st, none)

/-- The price used for execution in `simple_backtest`: the next row's
`Open` when a next row exists, otherwise the current row's `Close`. -/
def execPriceOf (r : Row) (rest : List Row) : ℚ :=
  match rest with
  | [] => r.bar.c
  | r2 :: _ => r2.bar.o

/-- The bar-by-bar loop of `simple_backtest` over the post-dropna rows.
After the buy/sell branches, one equity point `cash + position * Close`
is appended per row. -/
def sbLoop (commission : ℚ) : SBState → List Row → List EqPoint × List TradeRec
  | _, [] => ([], [])
  | st, r :: rest =>
    let step :=
      if r.pc = 1 then buyUpdate commission st (execPriceOf r rest) r.i
      else if r.pc = -1 then sellUpdate commission st (execPriceOf r rest) r.i
      else (st, none)
    let e : EqPoint :=
      { i := r.i, equity := step.1.cash + (step.1.position : ℚ) * r.bar.c,
        cash := step.1.cash, position := step.1.position }
    let next := sbLoop commission step.1 rest
    (e :: next.1, step.2.toList ++ next.2)

/-- The function `simple_backtest(df, n1, n2, initial_cash, commission)` from
`core/views.py`: returns the equity curve, the trade list and the worked
DataFrame. -/
def simpleBacktest (df : List Bar) (n1 n2 : ℕ) (initialCash commission : ℚ) :
    List EqPoint × List TradeRec × List Row :=
  let rows := buildRows df n1 n2
  let res := sbLoop commission { cash := initialCash, position := 0 } rows
  (res.1, res.2, rows)

/-- Number of leading rows of the input frame removed by
`df.dropna(subset=["sma1","sma2"])`: the SMA warm-up, `max n1 n2 - 1`. -/
def warmup (n1 n2 : ℕ) : ℕ := max n1 n2 - 1

/-! ### LaBomba (`core/strategies/la_bomba.py`) -/

/-- Risk parameter `stop_loss_pct = 0.01` of `LaBomba`. -/
def laStopLossPct : ℚ := 1 / 100

/-- Risk parameter `take_profit_pct = 0.02` of `LaBomba`. -/
def laTakeProfitPct : ℚ := 2 / 100

/-- Risk parameter `breakeven_pct = 0.01` of `LaBomba`. -/
def laBreakevenPct : ℚ := 1 / 100

/-- An open trade as seen by `LaBomba.next` (`self.trades` elements):
direction, entry price and the mutable stop-loss `sl`. -/
structure LaTrade where
  isLong : Bool
  entryPrice : ℚ
  sl : ℚ
  deriving Repr, DecidableEq, Inhabited

/-- The unrealized percentage gain computed in `LaBomba.next`:
`(price / trade.entry_price) - 1` for a long trade,
`(trade.entry_price / price) - 1` for a short trade. -/
def pnlPct (t : LaTrade) (price : ℚ) : ℚ :=
  if t.isLong then price / t.entryPrice - 1 else t.entryPrice / price - 1

/-- The break-even block of `LaBomba.next` applied to one open trade:
when `pnl_pct >= breakeven_pct`, move `sl` to `entry_price` if the trade is
long with `sl < entry_price`, or short with `sl > entry_price`. -/
def breakevenAdjust (breakevenPct price : ℚ) (t : LaTrade) : LaTrade :=
  if breakevenPct ≤ pnlPct t price then
    if t.isLong = true ∧ t.sl < t.entryPrice then { t with sl := t.entryPrice }
    else if t.isLong = false ∧ t.entryPrice < t.sl then { t with sl := t.entryPrice }
    else t
  else t

/-- An order emitted by the entry block of `LaBomba.next`:
`self.buy(sl=sl, tp=tp)` or `self.sell(sl=sl, tp=tp)`. -/
inductive LaOrder where
  | buyOrder (sl tp : ℚ)
  | sellOrder (sl tp : ℚ)
  deriving Repr, DecidableEq

/-- The entry block of `LaBomba.next`: only when `not self.position`,
buy on `crossover(sma1, sma2)` with `sl = price*(1-stop_loss_pct)`,
`tp = price*(1+take_profit_pct)`, else sell short on
`crossover(sma2, sma1)` with the symmetric levels. -/
def laBombaEntry (hasPosition : Bool) (crossUp crossDn : Bool) (price : ℚ) :
    Option LaOrder :=
  if !hasPosition then
    if crossUp then
      some (.buyOrder (price * (1 - laStopLossPct)) (price * (1 + laTakeProfitPct)))
    else if crossDn then
      some (.sellOrder (price * (1 + laStopLossPct)) (price * (1 - laTakeProfitPct)))
    else none
  else none

/-! ### Sanitizer and metrics (`core/services/backtest.py`) -/

/-- A Python value flowing through the sanitizer: a finite number, a float
NaN, a float infinity, or `None`. -/
inductive PyVal where
  | fin (q : ℚ)
  | nan
  | inf
  | null
  deriving Repr, DecidableEq, Inhabited

/-- The guard `x is None or np.isnan(x) or np.isinf(x)` shared by
`sanitize_series` and `get_safe_metric`. -/
def PyVal.isBad : PyVal → Bool
  | .fin _ => false
  | _ => true

/-- One element of the `sanitize_series` comprehension:
`None if x is None or np.isnan(x) or np.isinf(x) else float(x)`. -/
def sanitizeElem : PyVal → PyVal
  | .fin q => .fin q
  | _ => .null

/-- The function `sanitize_series` from `core/services/backtest.py`:
replaces NaN/Inf/None with `None` and keeps finite numbers. -/
def sanitizeSeries (l : List PyVal) : List PyVal := l.map sanitizeElem

/-- Half-to-even integer rounding, the rounding mode of Python `round`. -/
def roundHalfEven (q : ℚ) : ℤ :=
  let f := Int.floor q
  let r := q - (f : ℚ)
  if r < 1 / 2 then f
  else if 1 / 2 < r then f + 1
  else if Even f then f else f + 1

/-- Python `round(value, 2)`: round half-to-even at the second decimal. -/
def round2 (q : ℚ) : ℚ := (roundHalfEven (q * 100) : ℚ) / 100

/-- The helper `get_safe_metric` from `compute_metrics`
(`core/services/backtest.py`): `0` when the value is `None`/NaN/Inf,
otherwise `round(value, 2)`. -/
def getSafeMetric : PyVal → PyVal
  | .fin q => .fin (round2 q)
  | _ => .fin 0

/-- Python `int(x)` on a number: truncation toward zero. `int` is only
applied to results of `get_safe_metric`, which are always numbers; the
non-numeric branches are unreachable and mapped to 0. -/
def pyIntOf : PyVal → ℤ
  | .fin q => if 0 ≤ q then Int.floor q else Int.ceil q
  | _ => 0

/-- The stats object returned by the backtesting library's `bt.run()`,
restricted to the fields `compute_metrics` and the chart builders read.
The library call itself is a third-party dependency outside this
repository. -/
structure BtStats where
  retPct : PyVal
  retAnnPct : PyVal
  sharpeRatio : PyVal
  maxDdPct : PyVal
  numTrades : PyVal
  winRatePct : PyVal
  equity : List PyVal
  deriving Repr, DecidableEq, Inhabited

/-- The metrics dictionary built by `compute_metrics`. -/
structure Metrics where
  totalReturnPct : PyVal
  cagrPct : PyVal
  sharpe : PyVal
  maxDrawdownPct : PyVal
  trades : ℤ
  winratePct : PyVal
  deriving Repr, DecidableEq, Inhabited

/-- The function `compute_metrics` from `core/services/backtest.py`:
every scalar metric goes through `get_safe_metric`; the trade count is
additionally truncated by `int(...)`. -/
def computeMetrics (s : BtStats) : Metrics :=
  { totalReturnPct := getSafeMetric s.retPct
    cagrPct := getSafeMetric s.retAnnPct
    sharpe := getSafeMetric s.sharpeRatio
    maxDrawdownPct := getSafeMetric s.maxDdPct
    trades := pyIntOf (getSafeMetric s.numTrades)
    winratePct := getSafeMetric s.winRatePct }

/-! ### Strategy factory and run orchestration -/

/-- A strategy class loadable by the factory. The modules under
`core/strategies/` that define a class matching the CamelCase naming
convention are exactly `sma_cross.py` (`SmaCross`) and `la_bomba.py`
(`LaBomba`). -/
inductive StrategyClass where
  | smaCross
  | laBomba
  deriving Repr, DecidableEq

/-- The function `create_strategy` from `core/strategies/factory.py`:
imports `core.strategies.<name>` and returns its CamelCase class; any
other name raises `ImportError`/`AttributeError`, which is caught and
yields `None`. -/
def createStrategy (name : String) : Option StrategyClass :=
  if name = "sma_cross" then some .smaCross
  else if name = "la_bomba" then some .laBomba
  else none

/-- The alias table `STRATEGY_MAP` from `core/services/backtest.py`
(also inlined in `core/views.py`). -/
def strategyMap : List (String × String) :=
  [("SMA", "sma_cross"), ("EMA", "sma_cross"), ("RSI", "rsi"),
   ("MACD", "macd"), ("LA_BOMBA", "la_bomba"),
   ("buy_and_hold", "buy_and_hold"), ("sma_cross", "sma_cross")]

/-- The function `resolve_strategy_name` from `core/services/backtest.py`:
`STRATEGY_MAP.get(ui_strategy_name, ui_strategy_name)`. -/
def resolveStrategyName (ui : String) : String :=
  ((strategyMap.find? (fun p => p.1 = ui)).map (·.2)).getD ui

/-- The response payload assembled by `run_backtest` on success:
sanitized metrics, close-price chart series and equity chart series. -/
structure RunOutput where
  metrics : Metrics
  priceChartClose : List PyVal
  equityChart : List PyVal
  deriving Repr, DecidableEq, Inhabited

/-- The service entry point `run_backtest` from
`core/services/backtest.py`, at the core boundary: the already-fetched
OHLCV frame `df` is an input (data fetching and persistence are external
collaborators), and the third-party `Backtest(df, strategy, cash).run()`
call of `execute_backtest` is abstracted as the parameter `sim`.  Dates
are compared first; then the strategy name is resolved through the alias
table and the factory, and an unknown strategy raises `ValueError`,
caught and returned as an error payload before any simulation output is
built. -/
def runBacktest (sim : StrategyClass → List Bar → ℚ → BtStats)
    (startDate endDate : ℤ) (df : List Bar) (uiName : String) (cash : ℚ) :
    Except String RunOutput :=
  if endDate ≤ startDate then .error "Start date must be before end date."
  else
    let name := resolveStrategyName uiName
    match createStrategy name with
    | none => .error ("Strategy \"" ++ name ++ "\" not found.")
    | some strat =>
      let stats := sim strat df cash
      .ok { metrics := computeMetrics stats
            priceChartClose := sanitizeSeries (df.map (fun b => PyVal.fin b.c))
            equityChart := sanitizeSeries stats.equity }

/-! ### Auxiliary predicates used by the theorems -/

/-- Well-formedness of the `position_change` column relative to the
`signal` column: given the previous row's signal (`none` before the first
row), each row's `pc` is the difference of consecutive signals, 0 at the
first row. -/
def wfRows : Option ℤ → List Row → Prop
  | _, [] => True
  | prev, r :: rest =>
    (r.pc = match prev with | none => 0 | some p => r.sig - p) ∧
      wfRows (some r.sig) rest

/-- The worked rows starting at position `k` form the final contiguous
block of the input frame `df`: row indices are `k, k+1, ...`, each row
carries the bar `df[index]`, and the block reaches the last bar of `df`. -/
def contigFrom (df : List Bar) : ℕ → List Row → Prop
  | _, [] => True
  | k, r :: rest =>
    r.i = k ∧ r.bar = df.getD k default ∧ k < df.length ∧
      (rest = [] → k + 1 = df.length) ∧ contigFrom df (k + 1) rest

/-- Strict buy/sell alternation of a trade list: when `expectBuy` is true
the next trade recorded must be a buy, and the expectation flips after
every recorded trade.  `altTrades true trades` says the ledger is
buy, sell, buy, sell, … — i.e. a second position is never opened before
the previous one is fully closed. -/
def altTrades : Bool → List TradeRec → Prop
  | _, [] => True
  | expectBuy, t :: ts => t.isBuy = expectBuy ∧ altTrades (!expectBuy) ts

/-! ### Concrete example data -/

/-- A five-bar example frame (each bar has `Open = Close`, flat intrabar
range): closes 10, 10, 5, 20, 30. -/
def dfEx : List Bar :=
  [ { o := 10, h := 10, l := 10, c := 10, v := 1 },
    { o := 10, h := 10, l := 10, c := 10, v := 1 },
    { o := 5,  h := 5,  l := 5,  c := 5,  v := 1 },
    { o := 20, h := 20, l := 20, c := 20, v := 1 },
    { o := 30, h := 30, l := 30, c := 30, v := 1 } ]

/-- A four-bar example frame (each bar has `Open = Close`), closes
4, 2, 8, 9: with `n1 = 1`, `n2 = 2` the signal rises at the third bar, a
long position is opened there and is still held when the last bar is
processed. -/
def dfC2 : List Bar :=
  [ { o := 4, h := 4, l := 4, c := 4, v := 1 },
    { o := 2, h := 2, l := 2, c := 2, v := 1 },
    { o := 8, h := 8, l := 8, c := 8, v := 1 },
    { o := 9, h := 9, l := 9, c := 9, v := 1 } ]

/-! ## Structural lemmas about the worked DataFrame -/

theorem smaAt_isSome (closes : List ℚ) (n i : ℕ) :
    (smaAt closes n i).isSome =
      decide (1 ≤ n ∧ n - 1 ≤ i ∧ i < closes.length) := by
  unfold smaAt
  split <;> simp_all

theorem diffFill_length (l : List ℤ) : (diffFill l).length = l.length := by
  cases l with
  | nil => rfl
  | cons x xs => simp [diffFill]

theorem filter_enumFrom_le {α : Type*} (w : ℕ) (l : List α) :
    ∀ k : ℕ,
      (List.enumFrom k l).filter (fun p => decide (w ≤ p.1)) =
        List.enumFrom (max w k) (l.drop (w - k)) := by
  induction l with
  | nil => intro k; simp
  | cons a t ih =>
    intro k
    have hcons : List.enumFrom k (a :: t) = (k, a) :: List.enumFrom (k + 1) t := rfl
    by_cases h : w ≤ k
    · have h1 : max w k = k := by omega
      have h2 : w - k = 0 := by omega
      have h3 : max w (k + 1) = k + 1 := by omega
      have h4 : w - (k + 1) = 0 := by omega
      have hih := ih (k + 1)
      rw [h3, h4, List.drop_zero] at hih
      rw [hcons, List.filter_cons, h1, h2, List.drop_zero, hcons]
      simp only [decide_eq_true h, if_true, hih]
    · have h5 : max w (k + 1) = w := by omega
      have h6 : max w k = w := by omega
      have h7 : w - k = (w - (k + 1)) + 1 := by omega
      have hih := ih (k + 1)
      rw [h5] at hih
      rw [hcons, List.filter_cons, h6, h7, List.drop_succ_cons]
      simp only [decide_eq_false h, hih, Bool.false_eq_true, if_false]

theorem frameOf_eq (df : List Bar) (n1 n2 : ℕ) (h1 : 1 ≤ n1) (h2 : 1 ≤ n2) :
    frameOf df n1 n2 =
      List.enumFrom (warmup n1 n2) (df.drop (warmup n1 n2)) := by
  unfold frameOf
  have hcong : ∀ p ∈ df.enum,
      ((smaAt (df.map (·.c)) n1 p.1).isSome &&
        (smaAt (df.map (·.c)) n2 p.1).isSome) =
        decide (warmup n1 n2 ≤ p.1) := by
    intro p hp
    have hlt : p.1 < df.length := by
      have := List.fst_lt_add_of_mem_enumFrom hp
      simpa using this
    rw [smaAt_isSome, smaAt_isSome]
    simp only [List.length_map]
    rw [← Bool.decide_and]
    apply decide_eq_decide.mpr
    unfold warmup
    omega
  rw [List.filter_congr hcong]
  have henum : df.enum = List.enumFrom 0 df := rfl
  rw [henum, filter_enumFrom_le]
  have hmax : max (warmup n1 n2) 0 = warmup n1 n2 := by omega
  rw [hmax, Nat.sub_zero]

theorem frameOf_length (df : List Bar) (n1 n2 : ℕ) (h1 : 1 ≤ n1) (h2 : 1 ≤ n2) :
    (frameOf df n1 n2).length = df.length - warmup n1 n2 := by
  rw [frameOf_eq df n1 n2 h1 h2]
  simp

theorem buildRows_length (df : List Bar) (n1 n2 : ℕ) (h1 : 1 ≤ n1) (h2 : 1 ≤ n2) :
    (buildRows df n1 n2).length = df.length - warmup n1 n2 := by
  unfold buildRows
  rw [List.length_zipWith, diffFill_length, List.length_map,
    Nat.min_self, frameOf_length df n1 n2 h1 h2]

theorem sbLoop_length (commission : ℚ) (rows : List Row) :
    ∀ st : SBState, ((sbLoop commission st rows).1).length = rows.length := by
  induction rows with
  | nil => intro st; rfl
  | cons r rest ih => intro st; simp [sbLoop, ih]

theorem wfRows_zip_some (closes : List ℚ) (n1 n2 : ℕ) :
    ∀ (fr : List (ℕ × Bar)) (p : ℤ),
      wfRows (some p)
        (List.zipWith (mkRow closes n1 n2) fr
          (List.zipWith (fun a b => a - b)
            (fr.map (fun q => sigAt closes n1 n2 q.1))
            (p :: fr.map (fun q => sigAt closes n1 n2 q.1)))) := by
  intro fr
  induction fr with
  | nil => intro p; trivial
  | cons q fr ih => intro p; exact ⟨rfl, ih (sigAt closes n1 n2 q.1)⟩

theorem wfRows_buildRows (df : List Bar) (n1 n2 : ℕ) :
    wfRows none (buildRows df n1 n2) := by
  unfold buildRows
  generalize frameOf df n1 n2 = fr
  cases fr with
  | nil => trivial
  | cons q fr => exact ⟨rfl, wfRows_zip_some _ n1 n2 fr _⟩

theorem sig_zip_mkRow (closes : List ℚ) (n1 n2 : ℕ) :
    ∀ (fr : List (ℕ × Bar)) (ds : List ℤ) (r : Row),
      r ∈ List.zipWith (mkRow closes n1 n2) fr ds →
      r.sig = 0 ∨ r.sig = 1 := by
  intro fr
  induction fr with
  | nil => intro ds r h; simp at h
  | cons q fr ih =>
    intro ds r h
    cases ds with
    | nil => simp at h
    | cons d ds =>
      rcases List.mem_cons.mp h with h | h
      · subst h
        simp only [mkRow, sigAt]
        split <;> simp
      · exact ih ds r h

theorem sig_buildRows (df : List Bar) (n1 n2 : ℕ) (r : Row)
    (h : r ∈ buildRows df n1 n2) : r.sig = 0 ∨ r.sig = 1 := by
  unfold buildRows at h
  exact sig_zip_mkRow _ n1 n2 _ _ r h

theorem contigFrom_zip (df : List Bar) (closes : List ℚ) (n1 n2 : ℕ) :
    ∀ (suffix : List Bar) (k : ℕ) (ds : List ℤ),
      suffix = df.drop k → ds.length = suffix.length →
      k + suffix.length = df.length →
      contigFrom df k
        (List.zipWith (mkRow closes n1 n2) (List.enumFrom k suffix) ds) := by
  intro suffix
  induction suffix with
  | nil => intro k ds _ _ _; trivial
  | cons b t ih =>
    intro k ds hdrop hlen htot
    cases ds with
    | nil => simp at hlen
    | cons d ds =>
      refine ⟨rfl, ?_, ?_, ?_, ?_⟩
      · show b = df.getD k default
        have hk : df[k]? = some b := by
          have h0 : (df.drop k)[0]? = df[k + 0]? := List.getElem?_drop df k 0
          rw [← hdrop] at h0
          simpa using h0.symm
        simp [List.getD, hk]
      · show k < df.length
        simp only [List.length_cons] at htot
        omega
      · intro h0
        have := congrArg List.length h0
        simp only [List.length_zipWith, List.enumFrom_length,
          List.length_nil] at this
        simp only [List.length_cons] at hlen htot
        omega
      · apply ih (k + 1) ds
        · have hdd : df.drop (k + 1) = List.drop 1 (df.drop k) := by
            rw [List.drop_drop, Nat.add_comm]
          rw [hdd, ← hdrop]
          rfl
        · simpa using hlen
        · simp only [List.length_cons] at htot
          omega

theorem contigFrom_buildRows (df : List Bar) (n1 n2 : ℕ)
    (h1 : 1 ≤ n1) (h2 : 1 ≤ n2) :
    contigFrom df (warmup n1 n2) (buildRows df n1 n2) := by
  unfold buildRows
  rw [frameOf_eq df n1 n2 h1 h2]
  by_cases hw : warmup n1 n2 ≤ df.length
  · apply contigFrom_zip df _ n1 n2 (df.drop (warmup n1 n2)) (warmup n1 n2) _ rfl
    · rw [diffFill_length, List.length_map, List.enumFrom_length]
    · simp only [List.length_drop]
      omega
  · have hnil : df.drop (warmup n1 n2) = [] :=
      List.drop_eq_nil_of_le (by omega)
    rw [hnil]
    trivial

/-! ## Behavioral lemmas about the simulation loop -/

theorem buyUpdate_cash_nonneg (commission : ℚ) (hc0 : 0 ≤ commission)
    (hc1 : commission < 1) (st : SBState) (p : ℚ) (hp : 0 < p)
    (i : ℕ) (hcash : 0 ≤ st.cash) :
    0 ≤ (buyUpdate commission st p i).1.cash := by
  simp only [buyUpdate]
  split
  · simp only
    have hfl : ((⌊st.cash * (1 - commission) / p⌋ : ℤ) : ℚ) ≤
        st.cash * (1 - commission) / p := Int.floor_le _
    have h1 : ((⌊st.cash * (1 - commission) / p⌋ : ℤ) : ℚ) * p ≤
        st.cash * (1 - commission) := (le_div_iff hp).mp hfl
    nlinarith [sq_nonneg commission, mul_nonneg hcash (sq_nonneg commission)]
  · simpa using hcash

theorem sellUpdate_cash_nonneg (commission : ℚ) (hc1 : commission < 1)
    (st : SBState) (p : ℚ) (hp : 0 < p) (i : ℕ) (hcash : 0 ≤ st.cash) :
    0 ≤ (sellUpdate commission st p i).1.cash := by
  unfold sellUpdate
  split
  · next hpos =>
    simp only
    have hq : (0 : ℚ) < (st.position : ℚ) := by exact_mod_cast hpos
    nlinarith [mul_pos (mul_pos hq hp) (show (0 : ℚ) < 1 - commission by linarith)]
  · simpa using hcash

theorem sbLoop_cash_nonneg (commission : ℚ) (hc0 : 0 ≤ commission)
    (hc1 : commission < 1) (rows : List Row) :
    ∀ st : SBState, 0 ≤ st.cash →
      (∀ r ∈ rows, 0 < r.bar.o ∧ 0 < r.bar.c) →
      ∀ e ∈ (sbLoop commission st rows).1, 0 ≤ e.cash := by
  induction rows with
  | nil => intro st _ _ e he; simp [sbLoop] at he
  | cons r rest ih =>
    intro st hcash hpos e he
    have hr : 0 < r.bar.o ∧ 0 < r.bar.c := hpos r (List.mem_cons_self ..)
    have hrest : ∀ x ∈ rest, 0 < x.bar.o ∧ 0 < x.bar.c :=
      fun x hx => hpos x (List.mem_cons_of_mem _ hx)
    have hexec : 0 < execPriceOf r rest := by
      cases rest with
      | nil => exact hr.2
      | cons r2 _ => exact (hrest r2 (List.mem_cons_self ..)).1
    have hstep : 0 ≤ ((if r.pc = 1 then
        buyUpdate commission st (execPriceOf r rest) r.i
      else if r.pc = -1 then
        sellUpdate commission st (execPriceOf r rest) r.i
      else (st, none)).1).cash := by
      split
      · exact buyUpdate_cash_nonneg commission hc0 hc1 st _ hexec r.i hcash
      · split
        · exact sellUpdate_cash_nonneg commission hc1 st _ hexec r.i hcash
        · exact hcash
    rw [sbLoop] at he
    simp only [List.mem_cons] at he
    rcases he with he | he
    · subst he
      exact hstep
    · exact ih _ hstep hrest e he

theorem buyUpdate_cases (commission : ℚ) (st : SBState) (p : ℚ) (i : ℕ) :
    ((buyUpdate commission st p i).1 = st ∧
      (buyUpdate commission st p i).2 = none) ∨
    (∃ s : ℤ, 0 < s ∧
      (buyUpdate commission st p i).1.position = st.position + s ∧
      (buyUpdate commission st p i).2 =
        some { i := i, isBuy := true, price := p, shares := s }) := by
  simp only [buyUpdate]
  split
  · next hs => right; exact ⟨_, hs, rfl, rfl⟩
  · left; exact ⟨rfl, rfl⟩

theorem sellUpdate_cases (commission : ℚ) (st : SBState) (p : ℚ) (i : ℕ) :
    (¬0 < st.position ∧ (sellUpdate commission st p i).1 = st ∧
      (sellUpdate commission st p i).2 = none) ∨
    (0 < st.position ∧ (sellUpdate commission st p i).1.position = 0 ∧
      (sellUpdate commission st p i).2 =
        some { i := i, isBuy := false, price := p, shares := st.position }) := by
  simp only [sellUpdate]
  split
  · next h => right; exact ⟨h, rfl, rfl⟩
  · next h => left; exact ⟨h, rfl, rfl⟩

theorem sbLoop_alt (commission : ℚ) :
    ∀ (rows : List Row) (prev : Option ℤ) (st : SBState),
      wfRows prev rows →
      (∀ r ∈ rows, r.sig = 0 ∨ r.sig = 1) →
      (∀ q, prev = some q → q = 0 ∨ q = 1) →
      0 ≤ st.position →
      (0 < st.position → prev = some 1) →
      altTrades (decide (st.position = 0)) (sbLoop commission st rows).2 := by
  intro rows
  induction rows with
  | nil => intro prev st _ _ _ _ _; trivial
  | cons r rest ih =>
    intro prev st hwf hsig hprev hpos hinv
    obtain ⟨hpc, hwf'⟩ := hwf
    have hrsig := hsig r (List.mem_cons_self ..)
    have hsig' : ∀ x ∈ rest, x.sig = 0 ∨ x.sig = 1 :=
      fun x hx => hsig x (List.mem_cons_of_mem _ hx)
    have hprev' : ∀ q, some r.sig = some q → q = 0 ∨ q = 1 := by
      intro q hq
      cases hq
      exact hrsig
    rw [sbLoop]
    cases prev with
    | none =>
      have h0 : r.pc = 0 := hpc
      rw [h0]
      norm_num
      exact ih (some r.sig) st hwf' hsig' hprev' hpos
        (fun h => absurd (hinv h) (by simp))
    | some p =>
      have hp01 : p = 0 ∨ p = 1 := hprev p rfl
      have hpcv : r.pc = r.sig - p := hpc
      rcases hrsig with hs | hs <;> rcases hp01 with hp | hp
      · -- sig 0, prev 0 : pc = 0, no action
        rw [hpcv, hs, hp]
        norm_num
        exact ih (some r.sig) st hwf' hsig' hprev' hpos
          (fun h => absurd (hinv h) (by rw [hp]; simp))
      · -- sig 0, prev 1 : pc = -1, sell branch
        rw [hpcv, hs, hp]
        norm_num
        rcases sellUpdate_cases commission st (execPriceOf r rest) r.i with
          ⟨hnp, hst, htr⟩ | ⟨hpp, hst, htr⟩
        · rw [hst, htr]
          simp only [Option.toList_none, List.nil_append]
          exact ih (some r.sig) st hwf' hsig' hprev' hpos
            (fun h => absurd h hnp)
        · rw [htr]
          simp only [Option.toList_some, List.singleton_append]
          have hexp : decide (st.position = 0) = false :=
            decide_eq_false (by omega)
          rw [hexp]
          refine ⟨rfl, ?_⟩
          have hnext := ih (some r.sig) _ hwf' hsig' hprev'
            (le_of_eq hst.symm) (fun h => absurd (hst ▸ h) (by omega))
          rw [hst] at hnext
          simpa using hnext
      · -- sig 1, prev 0 : pc = 1, buy branch
        rw [hpcv, hs, hp]
        norm_num
        have hz : st.position = 0 := by
          by_contra hne
          have : (0 : ℤ) < st.position := by omega
          have := hinv this
          rw [hp] at this
          simp at this
        rcases buyUpdate_cases commission st (execPriceOf r rest) r.i with
          ⟨hst, htr⟩ | ⟨s, hspos, hst, htr⟩
        · rw [hst, htr]
          simp only [Option.toList_none, List.nil_append]
          exact ih (some r.sig) st hwf' hsig' hprev' hpos
            (fun _ => by rw [hs])
        · rw [htr]
          simp only [Option.toList_some, List.singleton_append]
          have hexp : decide (st.position = 0) = true := decide_eq_true hz
          rw [hexp]
          refine ⟨rfl, ?_⟩
          have hnext := ih (some r.sig) _ hwf' hsig' hprev'
            (by rw [hst, hz]; omega) (fun _ => by rw [hs])
          have hexp2 : decide
              ((buyUpdate commission st (execPriceOf r rest) r.i).1.position
                = 0) = false :=
            decide_eq_false (by rw [hst, hz]; omega)
          rw [hexp2] at hnext
          simpa using hnext
      · -- sig 1, prev 1 : pc = 0, no action
        rw [hpcv, hs, hp]
        norm_num
        exact ih (some r.sig) st hwf' hsig' hprev' hpos
          (fun _ => by rw [hs])

theorem sbLoop_equity_mark (commission : ℚ) (df : List Bar) :
    ∀ (rows : List Row) (k : ℕ) (st : SBState),
      contigFrom df k rows →
      ∀ e ∈ (sbLoop commission st rows).1,
        e.equity = e.cash + (e.position : ℚ) * (df.getD e.i default).c := by
  intro rows
  induction rows with
  | nil => intro k st _ e he; simp [sbLoop] at he
  | cons r rest ih =>
    intro k st hc e he
    obtain ⟨hi, hbar, hk, hlast, hrest⟩ := hc
    rw [sbLoop] at he
    simp only [List.mem_cons] at he
    rcases he with he | he
    · subst he
      simp only [hi, hbar]
    · exact ih (k + 1) _ hrest e he

theorem trade_of_step (commission : ℚ) (st : SBState) (p : ℚ) (i : ℕ)
    (pc : ℤ) (t : TradeRec)
    (h : t ∈ (if pc = 1 then buyUpdate commission st p i
      else if pc = -1 then sellUpdate commission st p i
      else (st, none)).2.toList) :
    t.price = p ∧ t.i = i := by
  split at h
  · rcases buyUpdate_cases commission st p i with ⟨_, htr⟩ | ⟨s, _, _, htr⟩ <;>
      rw [htr] at h <;> simp_all
  · split at h
    · rcases sellUpdate_cases commission st p i with ⟨_, _, htr⟩ | ⟨_, _, htr⟩ <;>
        rw [htr] at h <;> simp_all
    · simp at h

theorem sbLoop_trade_price (commission : ℚ) (df : List Bar) :
    ∀ (rows : List Row) (k : ℕ) (st : SBState),
      contigFrom df k rows →
      ∀ tr ∈ (sbLoop commission st rows).2,
        tr.i < df.length ∧
        tr.price = (if tr.i + 1 < df.length
          then (df.getD (tr.i + 1) default).o
          else (df.getD tr.i default).c) := by
  intro rows
  induction rows with
  | nil => intro k st _ tr htr; simp [sbLoop] at htr
  | cons r rest ih =>
    intro k st hc tr htr
    obtain ⟨hi, hbar, hk, hlast, hrest⟩ := hc
    rw [sbLoop] at htr
    simp only [List.mem_append] at htr
    rcases htr with htr | htr
    · obtain ⟨hpeq, hieq⟩ :=
        trade_of_step commission st (execPriceOf r rest) r.i r.pc tr htr
      refine ⟨by rw [hieq, hi]; exact hk, ?_⟩
      rw [hpeq, hieq, hi]
      cases rest with
      | nil =>
        have hkl : k + 1 = df.length := hlast rfl
        rw [if_neg (by omega)]
        simp [execPriceOf, hbar]
      | cons r2 rest2 =>
        obtain ⟨hi2, hbar2, hk2, _, _⟩ := hrest
        rw [if_pos (by omega)]
        simp [execPriceOf, hbar2]
    · exact ih (k + 1) _ hrest tr htr

theorem diffFill_getElem (l : List ℤ) (j : ℕ) (hj : j < (diffFill l).length) :
    (diffFill l)[j] =
      if j = 0 then 0 else l.getD j 0 - l.getD (j - 1) 0 := by
  cases l with
  | nil => simp [diffFill] at hj
  | cons x xs =>
    cases j with
    | zero => simp [diffFill]
    | succ j' =>
      have hj' : j' < (List.zipWith (fun a b => a - b) xs (x :: xs)).length := by
        simp only [diffFill, List.length_cons] at hj
        simpa using hj
      have hjx : j' < xs.length := by
        simp only [List.length_zipWith, List.length_cons] at hj'
        omega
      have hjxc : j' < (x :: xs).length := by
        simp only [List.length_cons]
        omega
      simp only [diffFill, List.getElem_cons_succ]
      rw [List.getElem_zipWith]
      rw [if_neg (Nat.succ_ne_zero j')]
      rw [List.getD_eq_getElem _ _ (by simpa using hjx),
        List.getD_eq_getElem _ _ (by simpa using hjxc)]
      simp

theorem buildRows_pc (df : List Bar) (n1 n2 : ℕ) (h1 : 1 ≤ n1) (h2 : 1 ≤ n2)
    (j : ℕ) (hj : j < (buildRows df n1 n2).length) :
    ((buildRows df n1 n2).get ⟨j, hj⟩).pc =
      if j = 0 then 0
      else
        sigAt (df.map (·.c)) n1 n2 (warmup n1 n2 + j) -
          sigAt (df.map (·.c)) n1 n2 (warmup n1 n2 + j - 1) := by
  have heq : buildRows df n1 n2 =
      List.zipWith (mkRow (df.map (·.c)) n1 n2)
        (List.enumFrom (warmup n1 n2) (df.drop (warmup n1 n2)))
        (diffFill ((List.enumFrom (warmup n1 n2)
            (df.drop (warmup n1 n2))).map
          (fun p => sigAt (df.map (·.c)) n1 n2 p.1))) := by
    unfold buildRows
    rw [frameOf_eq df n1 n2 h1 h2]
  have hlen : (buildRows df n1 n2).length = df.length - warmup n1 n2 :=
    buildRows_length df n1 n2 h1 h2
  have hjw : j < df.length - warmup n1 n2 := hlen ▸ hj
  have hjfr : j < (List.enumFrom (warmup n1 n2)
      (df.drop (warmup n1 n2))).length := by
    rw [List.enumFrom_length, List.length_drop]
    exact hjw
  have hjsig : j < ((List.enumFrom (warmup n1 n2)
      (df.drop (warmup n1 n2))).map
      (fun p => sigAt (df.map (·.c)) n1 n2 p.1)).length := by
    rw [List.length_map]
    exact hjfr
  have hjd : j < (diffFill ((List.enumFrom (warmup n1 n2)
      (df.drop (warmup n1 n2))).map
      (fun p => sigAt (df.map (·.c)) n1 n2 p.1))).length := by
    rw [diffFill_length]
    exact hjsig
  rw [List.get_eq_getElem]
  simp only [heq]
  rw [List.getElem_zipWith]
  simp only [mkRow]
  rw [diffFill_getElem _ j hjd]
  by_cases hj0 : j = 0
  · simp [hj0]
  · rw [if_neg hj0, if_neg hj0]
    have hj1 : j - 1 < ((List.enumFrom (warmup n1 n2)
        (df.drop (warmup n1 n2))).map
        (fun p => sigAt (df.map (·.c)) n1 n2 p.1)).length := by
      rw [List.length_map, List.enumFrom_length, List.length_drop]
      omega
    rw [List.getD_eq_getElem _ _ hjsig, List.getD_eq_getElem _ _ hj1]
    rw [List.getElem_map, List.getElem_map,
      List.getElem_enumFrom, List.getElem_enumFrom]
    congr 2
    omega

theorem smaAt_available (closes : List ℚ) (n i : ℕ)
    (hn : 1 ≤ n) (hw : n - 1 ≤ i) (hi : i < closes.length) :
    ∃ a, smaAt closes n i = some a := by
  unfold smaAt
  rw [if_pos ⟨hn, hw, hi⟩]
  exact ⟨_, rfl⟩

theorem contig_bar_mem (df : List Bar) :
    ∀ (rows : List Row) (k : ℕ), contigFrom df k rows →
      ∀ r ∈ rows, r.bar ∈ df := by
  intro rows
  induction rows with
  | nil => intro k _ r hr; simp at hr
  | cons r0 rest ih =>
    intro k hc r hr
    obtain ⟨hi, hbar, hk, _, hrest⟩ := hc
    rcases List.mem_cons.mp hr with hr | hr
    · subst hr
      rw [hbar, List.getD_eq_getElem _ _ hk]
      exact List.getElem_mem hk
    · exact ih (k + 1) hrest r hr

theorem simpleBacktest_fst (df : List Bar) (n1 n2 : ℕ) (cash c : ℚ) :
    (simpleBacktest df n1 n2 cash c).1 =
      (sbLoop c { cash := cash, position := 0 } (buildRows df n1 n2)).1 := rfl

theorem simpleBacktest_trades (df : List Bar) (n1 n2 : ℕ) (cash c : ℚ) :
    (simpleBacktest df n1 n2 cash c).2.1 =
      (sbLoop c { cash := cash, position := 0 } (buildRows df n1 n2)).2 := rfl

theorem simpleBacktest_rows (df : List Bar) (n1 n2 : ℕ) (cash c : ℚ) :
    (simpleBacktest df n1 n2 cash c).2.2 = buildRows df n1 n2 := rfl

theorem simpleBacktest_equity_length (df : List Bar) (n1 n2 : ℕ)
    (cash c : ℚ) (h1 : 1 ≤ n1) (h2 : 1 ≤ n2) :
    (simpleBacktest df n1 n2 cash c).1.length =
      df.length - warmup n1 n2 := by
  rw [simpleBacktest_fst, sbLoop_length, buildRows_length df n1 n2 h1 h2]

set_option maxHeartbeats 1000000 in
theorem rowsC2 : buildRows dfC2 1 2 =
    [ { i := 1, bar := { o := 2, h := 2, l := 2, c := 2, v := 1 },
        sig := 0, pc := 0 },
      { i := 2, bar := { o := 8, h := 8, l := 8, c := 8, v := 1 },
        sig := 1, pc := 1 },
      { i := 3, bar := { o := 9, h := 9, l := 9, c := 9, v := 1 },
        sig := 1, pc := 0 } ] := by
  norm_num [buildRows, frameOf, dfC2, List.enum, List.enumFrom, smaAt, sigAt,
    diffFill, mkRow, List.filter, warmup, List.range_succ]

/-! ## Claim theorems -/

/-- Claim C1 (amended): `simple_backtest` emits one EquityPoint per bar of
the post-dropna frame, not per bar of the input series: for SMA windows
`n1, n2 ≥ 1` the equity curve has `len(df) - (max(n1, n2) - 1)` points
(truncated at 0), the warm-up bars being dropped before the loop. -/
theorem c1_equity_length_after_warmup (df : List Bar) (n1 n2 : ℕ)
    (cash c : ℚ) (h1 : 1 ≤ n1) (h2 : 1 ≤ n2) :
    (simpleBacktest df n1 n2 cash c).1.length =
      df.length - (max n1 n2 - 1) :=
  simpleBacktest_equity_length df n1 n2 cash c h1 h2

/-- Claim C1, counterexample: on a five-bar series with windows 2 and 3
the equity curve of `simple_backtest` has 3 points, not 5 — the claimed
equality `len(equity_curve) = len(price_series)` fails. -/
theorem c1_counterexample :
    (simpleBacktest dfEx 2 3 10000 0).1.length ≠ dfEx.length := by
  rw [simpleBacktest_equity_length dfEx 2 3 10000 0 (by decide) (by decide)]
  decide

/-- Claim C1, witness for the amended theorem at a concrete input. -/
theorem c1_witness :
    (1 ≤ 1 ∧ 1 ≤ 2) ∧
      (simpleBacktest dfEx 1 2 10000 0).1.length =
        dfEx.length - (max 1 2 - 1) :=
  ⟨⟨by decide, by decide⟩,
    c1_equity_length_after_warmup dfEx 1 2 10000 0 (by decide) (by decide)⟩

/-- Claim C2 (amended): `simple_backtest` performs no terminal forced
liquidation.  Every equity point — in particular the last one — marks an
open position to market at that bar's close, `equity = cash + position *
Close`; a position still open after the last bar simply remains open, with
no closing trade recorded (see the counterexample for the original
claim). -/
theorem c2_mark_to_market_no_liquidation (df : List Bar) (n1 n2 : ℕ)
    (cash c : ℚ) (h1 : 1 ≤ n1) (h2 : 1 ≤ n2) :
    ∀ e ∈ (simpleBacktest df n1 n2 cash c).1,
      e.equity = e.cash + (e.position : ℚ) * (df.getD e.i default).c := by
  intro e he
  rw [simpleBacktest_fst] at he
  exact sbLoop_equity_mark c df (buildRows df n1 n2) (warmup n1 n2) _
    (contigFrom_buildRows df n1 n2 h1 h2) e he

/-- Claim C2, counterexample: on the `dfC2` run a long position of 1 share
is opened at the third worked bar and is still open when the last bar is
processed, yet the run ends with `position = 1 ≠ 0`, final
`equity = 10 ≠ 1 = cash`, and the trade list holds a single buy — no
closing trade at the last bar.  `simple_backtest` performs no terminal
liquidation. -/
theorem c2_counterexample :
    ((simpleBacktest dfC2 1 2 10 0).1.map
        (fun e => (e.position, e.cash, e.equity)) =
      [(0, 10, 10), (1, 1, 9), (1, 1, 10)]) ∧
    (simpleBacktest dfC2 1 2 10 0).2.1.map (fun t => t.isBuy) = [true] ∧
    (1 : ℤ) ≠ 0 ∧ (10 : ℚ) ≠ 1 := by
  refine ⟨?_, ?_, by decide, by norm_num⟩
  · rw [simpleBacktest_fst, rowsC2]
    norm_num [sbLoop, buyUpdate, sellUpdate, execPriceOf, Option.toList]
  · rw [simpleBacktest_trades, rowsC2]
    norm_num [sbLoop, buyUpdate, sellUpdate, execPriceOf, Option.toList]

/-- Claim C2, witness for the amended theorem at a concrete input. -/
theorem c2_witness :
    (1 ≤ 1 ∧ 1 ≤ 2) ∧
      ∀ e ∈ (simpleBacktest dfC2 1 2 10 0).1,
        e.equity = e.cash + (e.position : ℚ) * (dfC2.getD e.i default).c :=
  ⟨⟨by decide, by decide⟩,
    c2_mark_to_market_no_liquidation dfC2 1 2 10 0 (by decide) (by decide)⟩

/-- Claim C3: in `simple_backtest`, `position_change = 1` at a worked row
exactly when the SMA pair crosses over: both SMAs are available at the
row's original index `i = warmup + j` and at `i - 1`, with
`sma1[i] > sma2[i]` and `sma1[i-1] <= sma2[i-1]`; the signal is never 1 at
the first worked row, and inside the worked frame both SMAs are always
available, NaN rows having been dropped. -/
theorem c3_crossover (df : List Bar) (n1 n2 : ℕ) (cash c : ℚ)
    (h1 : 1 ≤ n1) (h2 : 1 ≤ n2) (j : ℕ)
    (hj : j < (simpleBacktest df n1 n2 cash c).2.2.length) :
    (((simpleBacktest df n1 n2 cash c).2.2).get ⟨j, hj⟩).pc = 1 ↔
      (j ≠ 0 ∧ ∃ a1 b1 a0 b0,
        smaAt (df.map (·.c)) n1 (warmup n1 n2 + j) = some a1 ∧
        smaAt (df.map (·.c)) n2 (warmup n1 n2 + j) = some b1 ∧
        smaAt (df.map (·.c)) n1 (warmup n1 n2 + j - 1) = some a0 ∧
        smaAt (df.map (·.c)) n2 (warmup n1 n2 + j - 1) = some b0 ∧
        b1 < a1 ∧ a0 ≤ b0) := by
  have hj' : j < (buildRows df n1 n2).length := hj
  have hrw : (((simpleBacktest df n1 n2 cash c).2.2).get ⟨j, hj⟩) =
      ((buildRows df n1 n2).get ⟨j, hj'⟩) := rfl
  rw [hrw, buildRows_pc df n1 n2 h1 h2 j hj']
  by_cases hj0 : j = 0
  · simp [hj0]
  · rw [if_neg hj0]
    have hjw : j < df.length - warmup n1 n2 := by
      rw [← buildRows_length df n1 n2 h1 h2]
      exact hj'
    have hlen : (df.map (·.c)).length = df.length := List.length_map ..
    have hi1 : warmup n1 n2 + j < (df.map (·.c)).length := by
      rw [hlen]; omega
    have hi0 : warmup n1 n2 + j - 1 < (df.map (·.c)).length := by
      rw [hlen]; omega
    have hw1a : n1 - 1 ≤ warmup n1 n2 + j := by unfold warmup; omega
    have hw1b : n2 - 1 ≤ warmup n1 n2 + j := by unfold warmup; omega
    have hw0a : n1 - 1 ≤ warmup n1 n2 + j - 1 := by unfold warmup; omega
    have hw0b : n2 - 1 ≤ warmup n1 n2 + j - 1 := by unfold warmup; omega
    obtain ⟨a1, ha1⟩ := smaAt_available (df.map (·.c)) n1 _ h1 hw1a hi1
    obtain ⟨b1, hb1⟩ := smaAt_available (df.map (·.c)) n2 _ h2 hw1b hi1
    obtain ⟨a0, ha0⟩ := smaAt_available (df.map (·.c)) n1 _ h1 hw0a hi0
    obtain ⟨b0, hb0⟩ := smaAt_available (df.map (·.c)) n2 _ h2 hw0b hi0
    simp only [sigAt, ha1, hb1, ha0, hb0, Option.getD_some]
    constructor
    · intro hlhs
      split_ifs at hlhs with hcond1 hcond0 hcond0
      · exact absurd hlhs (by norm_num)
      · exact ⟨hj0, a1, b1, a0, b0, rfl, rfl, rfl, rfl, hcond1,
          le_of_not_lt hcond0⟩
      · exact absurd hlhs (by norm_num)
      · exact absurd hlhs (by norm_num)
    · rintro ⟨-, x1, y1, x0, y0, hx1, hy1, hx0, hy0, hlt, hle⟩
      cases hx1
      cases hy1
      cases hx0
      cases hy0
      rw [if_pos hlt, if_neg (not_lt.mpr hle)]
      norm_num

/-- Claim C3, witness: at the third worked row of the `dfC2` run the
crossover characterization is available at a concrete index. -/
theorem c3_witness :
    (1 ≤ 1 ∧ 1 ≤ 2 ∧ 1 < (simpleBacktest dfC2 1 2 10 0).2.2.length) ∧
      ((((simpleBacktest dfC2 1 2 10 0).2.2).get
          ⟨1, by rw [simpleBacktest_rows,
            buildRows_length dfC2 1 2 (by decide) (by decide)]; decide⟩).pc
            = 1 ↔
        (1 ≠ 0 ∧ ∃ a1 b1 a0 b0,
          smaAt (dfC2.map (·.c)) 1 (warmup 1 2 + 1) = some a1 ∧
          smaAt (dfC2.map (·.c)) 2 (warmup 1 2 + 1) = some b1 ∧
          smaAt (dfC2.map (·.c)) 1 (warmup 1 2 + 1 - 1) = some a0 ∧
          smaAt (dfC2.map (·.c)) 2 (warmup 1 2 + 1 - 1) = some b0 ∧
          b1 < a1 ∧ a0 ≤ b0)) := by
  refine ⟨⟨by decide, by decide, ?_⟩, ?_⟩
  · rw [simpleBacktest_rows,
      buildRows_length dfC2 1 2 (by decide) (by decide)]
    decide
  · exact c3_crossover dfC2 1 2 10 0 (by decide) (by decide) 1 _

/-- Claim C4: the break-even block of `LaBomba.next` computes the
direction-aware unrealized gain `pnlPct` (`price/entry - 1` long,
`entry/price - 1` short) and moves the stop to the entry price exactly
when that gain reaches `breakeven_pct` while the stop is still on the
losing side of the entry; once the stop sits at the entry price the rule
never changes the trade again (one-directional ratchet). -/
theorem c4_breakeven_ratchet (bp price : ℚ) (t : LaTrade) :
    (breakevenAdjust bp price t =
      if bp ≤ pnlPct t price ∧
          (if t.isLong then t.sl < t.entryPrice else t.entryPrice < t.sl)
        then { t with sl := t.entryPrice } else t) ∧
    (t.sl = t.entryPrice → breakevenAdjust bp price t = t) := by
  constructor
  · unfold breakevenAdjust
    cases hL : t.isLong <;> split_ifs <;> simp_all
  · intro h
    unfold breakevenAdjust
    split_ifs with h1 h2 h3 <;> simp_all

/-- Claim C4, witness: a long trade whose stop already sits at the entry
price is left unchanged by the break-even rule. -/
theorem c4_witness :
    ({ isLong := true, entryPrice := 5, sl := 5 } : LaTrade).sl =
        ({ isLong := true, entryPrice := 5, sl := 5 } : LaTrade).entryPrice ∧
      breakevenAdjust laBreakevenPct 7
          { isLong := true, entryPrice := 5, sl := 5 } =
        { isLong := true, entryPrice := 5, sl := 5 } :=
  ⟨rfl, (c4_breakeven_ratchet laBreakevenPct 7
    { isLong := true, entryPrice := 5, sl := 5 }).2 rfl⟩

/-- Claim C5: with commission 0 the buy branch of `simple_backtest` buys
exactly `floor(cash / exec_price)` whole units and deducts exactly
`shares * exec_price` from cash; with a commission rate `c ∈ [0, 1)` the
sell branch credits the proceeds scaled by `(1 - c)` — commission deducted
from proceeds. -/
theorem c5_sizing_zero_fee (st : SBState) (p : ℚ) (i : ℕ)
    (hp : 0 < p) (hcash : 0 ≤ st.cash) (commission : ℚ) :
    ((buyUpdate 0 st p i).1 =
        { cash := st.cash - (↑⌊st.cash / p⌋ : ℚ) * p,
          position := st.position + ⌊st.cash / p⌋ } ∧
      (0 < ⌊st.cash / p⌋ →
        (buyUpdate 0 st p i).2 =
          some { i := i, isBuy := true, price := p,
                 shares := ⌊st.cash / p⌋ })) ∧
    (0 < st.position →
      (sellUpdate commission st p i).1.cash =
        st.cash + (st.position : ℚ) * p * (1 - commission)) := by
  refine ⟨⟨?_, ?_⟩, ?_⟩
  · simp only [buyUpdate, sub_zero, mul_one, add_zero]
    split
    · rfl
    · next hns =>
      have hz : ⌊st.cash / p⌋ = 0 := by
        have h0 : 0 ≤ ⌊st.cash / p⌋ :=
          Int.floor_nonneg.mpr (div_nonneg hcash (le_of_lt hp))
        omega
      cases st with
      | mk cash0 position0 =>
        simp [hz]
  · intro hsh
    simp only [buyUpdate, sub_zero, mul_one, add_zero]
    rw [if_pos hsh]
  · intro hpos
    simp only [sellUpdate]
    rw [if_pos hpos]

/-- Claim C5, witness at a concrete buy and sell. -/
theorem c5_witness :
    ((0 : ℚ) < 9 ∧ (0 : ℚ) ≤ 10 ∧ (0 : ℤ) < 2) ∧
      (buyUpdate 0 { cash := 10, position := 0 } 9 2).1 =
        { cash := 10 - (↑⌊(10 : ℚ) / 9⌋ : ℚ) * 9,
          position := 0 + ⌊(10 : ℚ) / 9⌋ } ∧
      (0 < ({ cash := 10, position := 3 } : SBState).position →
        (sellUpdate (1 / 10) { cash := 10, position := 3 } 9 2).1.cash =
          10 + ((3 : ℤ) : ℚ) * 9 * (1 - 1 / 10)) := by
  refine ⟨⟨by norm_num, by norm_num, by norm_num⟩, ?_, ?_⟩
  · exact (c5_sizing_zero_fee { cash := 10, position := 0 } 9 2
      (by norm_num) (by norm_num) (1 / 10)).1.1
  · exact (c5_sizing_zero_fee { cash := 10, position := 3 } 9 2
      (by norm_num) (by norm_num) (1 / 10)).2

/-- Claim C6: every trade recorded by `simple_backtest` is filled at the
next bar's open when a next bar exists, and at the signal bar's close when
the signal bar is the last bar of the series. -/
theorem c6_execution_price (df : List Bar) (n1 n2 : ℕ) (cash c : ℚ)
    (h1 : 1 ≤ n1) (h2 : 1 ≤ n2) :
    ∀ tr ∈ (simpleBacktest df n1 n2 cash c).2.1,
      tr.i < df.length ∧
      tr.price = (if tr.i + 1 < df.length
        then (df.getD (tr.i + 1) default).o
        else (df.getD tr.i default).c) := by
  intro tr htr
  rw [simpleBacktest_trades] at htr
  exact sbLoop_trade_price c df (buildRows df n1 n2) (warmup n1 n2) _
    (contigFrom_buildRows df n1 n2 h1 h2) tr htr

/-- Claim C6, witness at a concrete input. -/
theorem c6_witness :
    (1 ≤ 1 ∧ 1 ≤ 2) ∧
      ∀ tr ∈ (simpleBacktest dfC2 1 2 10 0).2.1,
        tr.i < dfC2.length ∧
        tr.price = (if tr.i + 1 < dfC2.length
          then (dfC2.getD (tr.i + 1) default).o
          else (dfC2.getD tr.i default).c) :=
  ⟨⟨by decide, by decide⟩,
    c6_execution_price dfC2 1 2 10 0 (by decide) (by decide)⟩

/-- Claim C7: sanitization is total and NaN/Inf-free — `sanitize_series`
preserves length, maps every `None`/NaN/Inf element to the missing marker
`None` and keeps every finite element unchanged, and its output never
contains NaN or Inf; `get_safe_metric` maps `None`/NaN/Inf to 0 and a
finite value to `round(value, 2)`, so every scalar field produced by
`compute_metrics` is a finite number. -/
theorem c7_sanitization :
    (∀ l : List PyVal, (sanitizeSeries l).length = l.length) ∧
    (∀ v : PyVal, (v.isBad = true → sanitizeElem v = .null) ∧
      ∀ q : ℚ, v = .fin q → sanitizeElem v = .fin q) ∧
    (∀ (l : List PyVal), ∀ u ∈ sanitizeSeries l,
      u ≠ .nan ∧ u ≠ .inf) ∧
    (∀ v : PyVal, v.isBad = true → getSafeMetric v = .fin 0) ∧
    (∀ q : ℚ, getSafeMetric (.fin q) = .fin (round2 q)) ∧
    (∀ s : BtStats,
      (computeMetrics s).totalReturnPct.isBad = false ∧
      (computeMetrics s).cagrPct.isBad = false ∧
      (computeMetrics s).sharpe.isBad = false ∧
      (computeMetrics s).maxDrawdownPct.isBad = false ∧
      (computeMetrics s).winratePct.isBad = false) := by
  refine ⟨?_, ?_, ?_, ?_, ?_, ?_⟩
  · intro l; simp [sanitizeSeries]
  · intro v
    constructor
    · intro hv; cases v <;> simp_all [PyVal.isBad, sanitizeElem]
    · intro q hq; subst hq; rfl
  · intro l u hu
    rcases List.mem_map.mp hu with ⟨v, _, hv⟩
    subst hv
    cases v <;> simp [sanitizeElem]
  · intro v hv; cases v <;> simp_all [PyVal.isBad, getSafeMetric]
  · intro q; rfl
  · intro s
    have hg : ∀ v : PyVal, (getSafeMetric v).isBad = false := by
      intro v; cases v <;> rfl
    exact ⟨hg _, hg _, hg _, hg _, hg _⟩

/-- Claim C7, witness at a concrete mixed list and metric values. -/
theorem c7_witness :
    (sanitizeSeries [PyVal.fin 3, PyVal.nan, PyVal.inf, PyVal.null]).length
        = 4 ∧
      (PyVal.nan.isBad = true → sanitizeElem PyVal.nan = .null) ∧
      (PyVal.nan.isBad = true → getSafeMetric PyVal.nan = .fin 0) := by
  refine ⟨?_, (c7_sanitization.2.1 PyVal.nan).1, ?_⟩
  · rw [c7_sanitization.1 [PyVal.fin 3, PyVal.nan, PyVal.inf, PyVal.null]]
    rfl
  · exact c7_sanitization.2.2.2.1 PyVal.nan

/-- Claim C8: when the identifier, after alias normalization, has no
registered strategy, `run_backtest` returns an error payload before any
simulation output is constructed — no metrics, trades or equity points are
produced, for any behavior of the simulation step. -/
theorem c8_unknown_strategy (sim : StrategyClass → List Bar → ℚ → BtStats)
    (startDate endDate : ℤ) (df : List Bar) (uiName : String) (cash : ℚ)
    (hdate : startDate < endDate)
    (hns : createStrategy (resolveStrategyName uiName) = none) :
    runBacktest sim startDate endDate df uiName cash =
      .error ("Strategy \"" ++ resolveStrategyName uiName ++
        "\" not found.") := by
  unfold runBacktest
  rw [if_neg (by omega)]
  simp only [hns]

/-- Claim C8, witness: the UI name `RSI` normalizes to `rsi`, which has no
strategy module, so the run errors out. -/
theorem c8_witness :
    ((0 : ℤ) < 1 ∧ createStrategy (resolveStrategyName "RSI") = none) ∧
      runBacktest (fun _ _ _ => default) 0 1 dfEx "RSI" 10000 =
        .error ("Strategy \"" ++ resolveStrategyName "RSI" ++
          "\" not found.") :=
  ⟨⟨by decide, by decide⟩,
    c8_unknown_strategy (fun _ _ _ => default) 0 1 dfEx "RSI" 10000
      (by decide) (by decide)⟩

/-- Claim C9: at most one position is open at any simulated instant — the
trade ledger of `simple_backtest` strictly alternates buy, sell, buy, …
starting from a flat state (a buy can only execute from a flat position,
and a sell fully closes it), and the entry block of `LaBomba.next` only
emits an order when no position is open. -/
theorem c9_single_position (df : List Bar) (n1 n2 : ℕ) (cash c : ℚ) :
    altTrades true (simpleBacktest df n1 n2 cash c).2.1 ∧
    (∀ (hasPos crossUp crossDn : Bool) (price : ℚ),
      (laBombaEntry hasPos crossUp crossDn price).isSome = true →
        hasPos = false) := by
  constructor
  · rw [simpleBacktest_trades]
    have h := sbLoop_alt c (buildRows df n1 n2) none
      { cash := cash, position := 0 }
      (wfRows_buildRows df n1 n2)
      (fun r hr => sig_buildRows df n1 n2 r hr)
      (fun q hq => by cases hq)
      (le_refl 0)
      (fun hcon => absurd hcon (by simp))
    simpa using h
  · intro hasPos cu cd price h
    cases hasPos with
    | false => rfl
    | true => simp [laBombaEntry] at h

/-- Claim C9, witness: the la-bomba entry guard applied to a concrete flat
state with a buy crossover. -/
theorem c9_witness :
    (laBombaEntry false true false 100).isSome = true ∧
      false = false :=
  ⟨by decide,
    (c9_single_position dfEx 1 2 10000 0).2 false true false 100
      (by decide)⟩

/-- Claim C10: with non-negative initial cash, commission `c ∈ [0, 1)` and
positive open/close prices, cash stays non-negative after every bar of
`simple_backtest` — whole-unit sizing by `floor(cash/price)` never spends
more than the cash on hand, and sells only add proceeds. -/
theorem c10_cash_nonneg (df : List Bar) (n1 n2 : ℕ) (cash c : ℚ)
    (h1 : 1 ≤ n1) (h2 : 1 ≤ n2) (hcash : 0 ≤ cash)
    (hc0 : 0 ≤ c) (hc1 : c < 1)
    (hpos : ∀ b ∈ df, 0 < b.o ∧ 0 < b.c) :
    ∀ e ∈ (simpleBacktest df n1 n2 cash c).1, 0 ≤ e.cash := by
  intro e he
  rw [simpleBacktest_fst] at he
  refine sbLoop_cash_nonneg c hc0 hc1 (buildRows df n1 n2)
    { cash := cash, position := 0 } hcash ?_ e he
  intro r hr
  exact hpos r.bar
    (contig_bar_mem df (buildRows df n1 n2) (warmup n1 n2)
      (contigFrom_buildRows df n1 n2 h1 h2) r hr)

/-- Claim C10, witness at a concrete run. -/
theorem c10_witness :
    (1 ≤ 1 ∧ 1 ≤ 2 ∧ (0 : ℚ) ≤ 10 ∧ (0 : ℚ) ≤ 0 ∧ (0 : ℚ) < 1 ∧
      ∀ b ∈ dfC2, 0 < b.o ∧ 0 < b.c) ∧
      ∀ e ∈ (simpleBacktest dfC2 1 2 10 0).1, 0 ≤ e.cash :=
  ⟨⟨by decide, by decide, by decide, by decide, by decide, by decide⟩,
    c10_cash_nonneg dfC2 1 2 10 0 (by decide) (by decide) (by decide)
      (by decide) (by decide) (by decide)⟩

end Backtest
